import Mathlib

/-!
Shallow embedding of the RefflyAI rulebook search service
(`apps/functions/index.js`, most feature-rich variant) and verification of
its specification.

Strings are modelled as Lean `String`/`List Char`.  JS fields that may be
absent are `Option String`.  The mutable module state (the rule store and
the synonym table) is passed explicitly.  The JS `RegExp` constructor,
which the source wraps in try/catch, is modelled abstractly where a claim
is about its failure; the always-succeeding instance used by the deployed
code is `safeWordRegex`.
-/

set_option maxRecDepth 4000

/-- JS whitespace class for the purposes of the regexes `\s`, `trim`,
`trimEnd` (ASCII part; the source data is ASCII-ish). -/
def isWs (c : Char) : Bool :=
  c = ' ' || c = '\t' || c = '\n' || c = '\r' || c = Char.ofNat 11 || c = Char.ofNat 12

/-- `toLowerCase` on a character list. -/
def lcList (l : List Char) : List Char := l.map Char.toLower

/-- `lc(s)` of the source for a present string: `String(s).toLowerCase()`. -/
def lcStr (s : String) : String := String.mk (lcList s.data)

/-- One pass of `replace(/\s+/g, " ")`, written with an explicit
"inside a whitespace run" flag so the recursion is structural: the first
character of every maximal whitespace run becomes a single space and the
rest of the run is dropped. -/
def collapseA : Bool → List Char → List Char
  | _, [] => []
  | inRun, c :: rest =>
    if isWs c then
      if inRun then collapseA true rest else ' ' :: collapseA true rest
    else c :: collapseA false rest

/-- `replace(/\s+/g, " ")`: every maximal whitespace run becomes a single
space. -/
def collapseAux (l : List Char) : List Char := collapseA false l

/-- JS `trimEnd()`. -/
def jsTrimEnd (l : List Char) : List Char := (l.reverse.dropWhile isWs).reverse

/-- JS `trim()`. -/
def jsTrim (l : List Char) : List Char := jsTrimEnd (l.dropWhile isWs)

/-- JS `trim()` on strings. -/
def jsTrimS (s : String) : String := String.mk (jsTrim s.data)

/-- `clean(s)` of the source on a present string: collapse whitespace
runs, then trim.  (The second replace of the source,
`replace(/[^\S\r\n]+/g, " ")`, is a no-op after the first.) -/
def cleanStr (s : String) : String := String.mk (jsTrim (collapseAux s.data))

/-- `clean(s)` of the source: `(s || "").toString()` then collapse + trim. -/
def clean (s : Option String) : String := cleanStr (s.getD "")

/-- `lc(s)` of the source on a possibly-absent value. -/
def lc (s : Option String) : String := lcStr (s.getD "")

/-- `hay.indexOf(pat)`: index of the first occurrence, `none` for `-1`. -/
def idxOf? : List Char → List Char → Option Nat
  | [], pat => if pat.isPrefixOf ([] : List Char) then some 0 else none
  | c :: rest, pat =>
    if pat.isPrefixOf (c :: rest) then some 0
    else (idxOf? rest pat).map (· + 1)

/-- `hay.indexOf(pat) >= 0` on strings. -/
def hasInfixS (hay pat : String) : Bool := (idxOf? hay.data pat.data).isSome

/-- JS regex `\w` class: `[A-Za-z0-9_]`. -/
def isWordChar (c : Char) : Bool :=
  ('a' ≤ c && c ≤ 'z') || ('A' ≤ c && c ≤ 'Z') || ('0' ≤ c && c ≤ '9') || c = '_'

/-- Word-char test at an index, out-of-range counting as non-word. -/
def wordAtN (hay : List Char) (i : Nat) : Bool :=
  match hay[i]? with
  | some c => isWordChar c
  | none => false

/-- JS regex `\b` at position `i` of `hay` (0 ≤ i ≤ length). -/
def boundaryAt (hay : List Char) (i : Nat) : Bool :=
  (match i with
   | 0 => false
   | j + 1 => wordAtN hay j) != wordAtN hay i

/-- The escaped literal `pat` matches `hay` at `i` with `\b` on both sides. -/
def wordMatchAt (hay pat : List Char) (i : Nat) : Bool :=
  pat.isPrefixOf (hay.drop i) && boundaryAt hay i && boundaryAt hay (i + pat.length)

/-- `new RegExp("\\b" + escapeRegExp(pat) + "\\b").test(hay)` for strings
that are already lowercased (the `i` flag is then immaterial for ASCII). -/
def wordTest (pat hay : List Char) : Bool :=
  (List.range (hay.length + 1)).any (fun i => wordMatchAt hay pat i)

/-- One rulebook record: a loosely-typed JS object with optional fields. -/
structure Rule where
  id : Option String := none
  rule_id : Option String := none
  ruleId : Option String := none
  title : Option String := none
  subtitle : Option String := none
  parentRule : Option String := none
  subsection : Option String := none
  content : Option String := none
  references : Option String := none
  citation : Option String := none
  citation1 : Option String := none
deriving DecidableEq

/-- The six keys of the `fields` weight table in `scoreRule`. -/
inductive SField
  | title
  | subtitle
  | content
  | references
  | parentRule
  | subsection
deriving DecidableEq

/-- Field access `rule[f]` for the scored fields. -/
def Rule.sfield (r : Rule) : SField → Option String
  | .title => r.title
  | .subtitle => r.subtitle
  | .content => r.content
  | .references => r.references
  | .parentRule => r.parentRule
  | .subsection => r.subsection

/-- The weight table `{title:3, subtitle:2, content:4, references:1, parentRule:2, subsection:2}`. -/
def weight : SField → Nat
  | .title => 3
  | .subtitle => 2
  | .content => 4
  | .references => 1
  | .parentRule => 2
  | .subsection => 2

/-- `Object.keys(fields)` in declaration order. -/
def sfieldKeys : List SField :=
  [.title, .subtitle, .content, .references, .parentRule, .subsection]

/-- `blob[f] = lc(clean(rule[f]))` of `scoreRule`. -/
def blob (r : Rule) (f : SField) : String := lcStr (clean (r.sfield f))

/-- `safeWordRegex` of the source.  Since `escapeRegExp` escapes every
metacharacter, construction never fails in the deployed code; the
abstract parameter `wordRe` of `scoreRuleWith` ranges over possible
outcomes of the host `RegExp` constructor. -/
def safeWordRegex (term : String) : Option (String → Bool) :=
  some (fun hay => wordTest term.data hay.data)

/-- The contribution of one term in `scoreRule`, with the regex
constructor abstracted. -/
def termScoreWith (wordRe : String → Option (String → Bool)) (r : Rule) (tq : String) : Nat :=
  let term := lcStr tq
  let termRe := wordRe term
  (sfieldKeys.map (fun f =>
    let wt := weight f
    let hay := blob r f
    if hay = "" then 0
    else
      (match termRe with
       | some t => if t hay then 5 * wt else 0
       | none => 0) +
      (if hasInfixS hay term then 1 * wt else 0))).sum +
  (if blob r .content ≠ "" ∧ hasInfixS (blob r .content) term then 3 else 0)

/-- `scoreRule` with the regex constructor abstracted. -/
def scoreRuleWith (wordRe : String → Option (String → Bool)) (r : Rule)
    (queries : List String) : Nat :=
  (queries.map (termScoreWith wordRe r)).sum

/-- `scoreRule(rule, queries)` of the source. -/
def scoreRule (r : Rule) (queries : List String) : Nat :=
  scoreRuleWith safeWordRegex r queries

/-- Modelled from the spec (§4.2), for comparison with `scoreRule`:
for every (term, field) pair add `5 × weight` on a word-boundary match and
`1 × weight` on a substring occurrence, plus a flat `+3` for each term that
occurs as a substring of the content field. -/
def scoreRuleSpec (r : Rule) (queries : List String) : Nat :=
  (queries.map (fun tq =>
    let term := lcStr tq
    (sfieldKeys.map (fun f =>
      (if wordTest term.data (blob r f).data then 5 * weight f else 0) +
      (if hasInfixS (blob r f) term then weight f else 0))).sum +
    (if hasInfixS (blob r .content) term then 3 else 0))).sum

/-- The substring-only bonuses of one term in `scoreRule` (what remains
when the word-boundary matcher is unavailable). -/
def substrTermScore (r : Rule) (tq : String) : Nat :=
  let term := lcStr tq
  (sfieldKeys.map (fun f =>
    if blob r f ≠ "" ∧ hasInfixS (blob r f) term then weight f else 0)).sum +
  (if blob r .content ≠ "" ∧ hasInfixS (blob r .content) term then 3 else 0)

/-- `if (terms.indexOf(alt) === -1) terms.push(alt)`. -/
def pushIfAbsent (ts : List String) (alt : String) : List String :=
  if alt ∈ ts then ts else ts ++ [alt]

/-- The body of the key loop of `expandQueryWithSynonyms`. -/
def expandStep (base : String) (ts : List String) (kv : String × List String) : List String :=
  if hasInfixS base kv.1 then kv.2.foldl pushIfAbsent ts else ts

/-- The final `uniq` pass of `expandQueryWithSynonyms`. -/
def dedupKeep (ts : List String) : List String := ts.foldl pushIfAbsent []

/-- `expandQueryWithSynonyms(q)` of the source, with the synonym table
(`SYNONYMS`, defaults merged with the optional override file) passed
explicitly as an association list in key order. -/
def expandQueryWithSynonyms (syn : List (String × List String)) (q : String) : List String :=
  dedupKeep (syn.foldl (expandStep (lcStr q)) [q])

/-- JS truthiness of a possibly-absent string field. -/
def jsTruthyS (o : Option String) : Bool := o.getD "" != ""

/-- `buildTitle(rule)` of the source. -/
def buildTitle (r : Rule) : String :=
  let parts :=
    (if jsTruthyS r.parentRule then [clean r.parentRule] else []) ++
    (if jsTruthyS r.title then [clean r.title] else []) ++
    (if jsTruthyS r.subsection then [clean r.subsection] else [])
  let parts := if parts.isEmpty && jsTruthyS r.subtitle then [clean r.subtitle] else parts
  let joined := String.intercalate " — " parts
  if joined != "" then joined
  else if clean r.subtitle != "" then clean r.subtitle
  else "Rule"

/-- `getCitation(rule)` of the source. -/
def getCitation (r : Rule) : String :=
  (([r.citation, r.citation1, r.rule_id, r.ruleId, r.id].map clean).find?
    (fun c => c != "")).getD ""

/-- `String(r.id != null ? r.id : (r.rule_id != null ? r.rule_id : (r.ruleId != null ? r.ruleId : "")))`. -/
def idOf (r : Rule) : String :=
  (r.id.orElse fun _ => r.rule_id.orElse fun _ => r.ruleId).getD ""

/-- The `foundAt` loop of `makeExcerpt`: earliest `indexOf` hit of any
term, `none` for `-1`. -/
def earliestIdx (base : List Char) (queries : List String) : Option Nat :=
  queries.foldl (fun acc q =>
    match idxOf? base (lcList q.data) with
    | none => acc
    | some idx =>
      match acc with
      | none => some idx
      | some cur => if idx < cur then some idx else acc) none

/-- The body of `makeExcerpt` after cleaning, on a non-empty `t`. -/
def excerptCore (t : List Char) (queries : List String) (MAX : Nat) : List Char :=
  match earliestIdx (lcList t) queries with
  | none => if t.length ≤ MAX then t else jsTrimEnd (t.take (MAX - 1)) ++ ['…']
  | some foundAt =>
    let PAD := MAX / 2
    let start := foundAt - PAD
    let stop := min t.length (start + MAX)
    let snippet := jsTrim ((t.drop start).take (stop - start))
    (if 0 < start then ("… ").data else []) ++ snippet ++
      (if stop < t.length then (" …").data else [])

/-- `makeExcerpt(text, queries, maxLen)` of the source.  `maxLen || 240`
is modelled on `Nat` as `if maxLen = 0 then 240 else maxLen`. -/
def makeExcerpt (text : String) (queries : List String) (maxLen : Nat) : String :=
  let MAX := if maxLen = 0 then 240 else maxLen
  let t := cleanStr text
  if t = "" then "" else String.mk (excerptCore t.data queries MAX)

/-- Fuel-indexed helper for `ciReplace` (each step consumes at least one
character, so `fuel = text.length` always suffices); the fuel keeps the
recursion structural. -/
def ciReplaceF (term : List Char) : Nat → List Char → List Char
  | _, [] => []
  | 0, text => text
  | fuel + 1, c :: rest =>
    if 0 < term.length ∧ (lcList term).isPrefixOf (lcList (c :: rest)) then
      '«' :: ((c :: rest).take term.length ++
        '»' :: ciReplaceF term fuel ((c :: rest).drop term.length))
    else c :: ciReplaceF term fuel rest

/-- `out.replace(new RegExp("(" + escapeRegExp(term) + ")", "gi"), "«$1»")`:
left-to-right, non-overlapping, case-insensitive wrapping of each match.
The guard `0 < term.length` reflects that the source only reaches the
replace with a non-empty trimmed term. -/
def ciReplace (term text : List Char) : List Char := ciReplaceF term text.length text

/-- `highlight(text, queries)` of the source, with success of the
per-term `RegExp` construction abstracted as `compileOk` (the source
swallows a construction failure after marking the term as seen). -/
def highlightWith (compileOk : String → Bool) (text : String) (queries : List String) : String :=
  if text = "" then ""
  else
    String.mk (queries.foldl (fun (acc : List Char × List String) (qi : String) =>
      let term := jsTrimS qi
      if term = "" || acc.2.contains term then acc
      else if compileOk term then (ciReplace term.data acc.1, term :: acc.2)
      else (acc.1, term :: acc.2)) (text.data, [])).1

/-- `highlight(text, queries)` as deployed: escaping makes every
construction succeed. -/
def highlight (text : String) (queries : List String) : String :=
  highlightWith (fun _ => true) text queries

/-- Erase every highlight marker `«`/`»`. -/
def stripMarkers (s : String) : String :=
  String.mk (s.data.filter (fun c => c != '«' && c != '»'))

/-- Number of (possibly overlapping) case-insensitive occurrence positions
of `pat` in `text`. -/
def countCiOcc (text pat : List Char) : Nat :=
  ((List.range (text.length + 1)).filter
    (fun i => (lcList pat).isPrefixOf ((lcList text).drop i))).length

/-- `parseBool(v, def)` of the source. -/
def parseBool (v : Option String) (d : Bool) : Bool :=
  match v with
  | none => d
  | some s =>
    let t := lcStr s
    t == "1" || t == "true" || t == "yes"

/-- Value of a non-empty decimal digit run. -/
def digitsVal (l : List Char) : Nat := l.foldl (fun a c => a * 10 + (c.toNat - 48)) 0

/-- JS `parseInt(s, 10)`: skip leading whitespace, optional sign, a
digit run; `NaN` (here `none`) when no digit follows. -/
def parseIntJs (s : String) : Option Int :=
  match s.data.dropWhile isWs with
  | '-' :: rest =>
    let ds := rest.takeWhile Char.isDigit
    if ds.isEmpty then none else some (-(digitsVal ds : Int))
  | '+' :: rest =>
    let ds := rest.takeWhile Char.isDigit
    if ds.isEmpty then none else some ((digitsVal ds : Int))
  | l =>
    let ds := l.takeWhile Char.isDigit
    if ds.isEmpty then none else some ((digitsVal ds : Int))

/-- `parseIntSafe(v, def)` of the source: the parsed value when it is a
finite non-negative integer, else the default. -/
def parseIntSafe (v : Option String) (d : Nat) : Nat :=
  match v with
  | none => d
  | some s =>
    match parseIntJs s with
    | some n => if 0 ≤ n then n.toNat else d
    | none => d

/-- `normalizeId(x)` of the source. -/
def normalizeId (x : Option String) : String :=
  match x with
  | none => ""
  | some s => jsTrimS s

/-- The per-record test of `findById`. -/
def idMatches (want : String) (r : Rule) : Bool :=
  [r.id, r.rule_id, r.ruleId].any (fun f => normalizeId f == want)

/-- `findById(id)` of the source, store passed explicitly. -/
def findById (rules : List Rule) (id : Option String) : Option Rule :=
  rules.find? (idMatches (normalizeId id))

/-- `normalizeCitation(x)` of the source: trim, then collapse whitespace
runs. -/
def normalizeCitation (x : Option String) : String :=
  match x with
  | none => ""
  | some s => String.mk (collapseAux (jsTrim s.data))

/-- The per-record test of `findByCitation`: a candidate matches when its
normalized lowercased value is non-empty and equals `want`. -/
def citMatches (want : String) (r : Rule) : Bool :=
  [r.citation, r.citation1, r.rule_id, r.ruleId].any (fun f =>
    let got := lcStr (normalizeCitation f)
    got != "" && got == want)

/-- `findByCitation(c)` of the source, store passed explicitly. -/
def findByCitation (rules : List Rule) (c : Option String) : Option Rule :=
  rules.find? (citMatches (lcStr (normalizeCitation c)))

/-- JS `v || d` on the non-negative integers coming out of
`parseIntSafe`: `0` is falsy. -/
def jsOrNat (v : Option Nat) (d : Nat) : Nat :=
  match v with
  | none => d
  | some n => if n = 0 then d else n

/-- The `opts` object of `searchRules`. -/
structure SearchOpts where
  q : Option String
  limit : Option Nat := none
  offset : Option Nat := none
  doHighlight : Bool := false

/-- One element of `results` in `searchRules`. -/
structure SearchHit where
  id : String
  title : String
  citation : String
  score : Nat
  excerpt : String
deriving DecidableEq

/-- The return value of `searchRules`. -/
structure SearchOut where
  hits : Nat
  results : List SearchHit
deriving DecidableEq

/-- The `scored` array of `searchRules`: positively scored records with
their scores, in store order. -/
def searchCandidates (rules : List Rule) (queries : List String) : List (Rule × Nat) :=
  rules.filterMap (fun r =>
    let s := scoreRule r queries
    if 0 < s then some (r, s) else none)

/-- Stable insertion (descending by score): an element passes over
exactly the elements with a strictly smaller score, so ties keep their
original relative order. -/
def insertDesc (x : Rule × Nat) : List (Rule × Nat) → List (Rule × Nat)
  | [] => [x]
  | y :: rest => if y.2 < x.2 then x :: y :: rest else y :: insertDesc x rest

/-- `scored.sort((a, b) => b.s - a.s)`: stable descending sort by score
(Node 20's Array#sort is stable), modelled as stable insertion sort. -/
def sortByScore (l : List (Rule × Nat)) : List (Rule × Nat) :=
  l.foldr insertDesc []

/-- The per-result formatting of the slice loop of `searchRules`. -/
def formatHit (queries : List String) (doHighlight : Bool) (item : Rule × Nat) : SearchHit :=
  let r := item.1
  let content := clean r.content
  let ex0 := makeExcerpt content queries 240
  let ex := if doHighlight && ex0 != "" then highlight ex0 queries else ex0
  ⟨idOf r, buildTitle r, getCitation r, item.2, ex⟩

/-- `searchRules(opts)` of the source, synonym table and rule store passed
explicitly. -/
def searchRules (syn : List (String × List String)) (rules : List Rule)
    (opts : SearchOpts) : SearchOut :=
  let limit := jsOrNat opts.limit 5
  let offset := jsOrNat opts.offset 0
  let rawQuery := clean opts.q
  if rawQuery = "" then ⟨0, []⟩
  else
    let queries := expandQueryWithSynonyms syn rawQuery
    let scored := searchCandidates rules queries
    let sorted := sortByScore scored
    let slice := (sorted.drop offset).take limit
    ⟨scored.length, slice.map (formatHit queries opts.doHighlight)⟩

/-- `scoreForSuggest(rule)` of `suggestRules`. -/
def scoreForSuggest (queries : List String) (r : Rule) : Nat :=
  let title := lcStr (buildTitle r)
  let cit := lcStr (getCitation r)
  let content := lcStr (clean r.content)
  (queries.map (fun tq =>
    let term := lcStr tq
    (match safeWordRegex term with
     | some t => (if t title then 20 else 0) + (if t cit then 12 else 0)
     | none => 0) +
    (if hasInfixS title term then 6 else 0) +
    (if hasInfixS cit term then 4 else 0) +
    (if hasInfixS content term then 1 else 0))).sum

/-- One suggestion row. -/
structure Sug where
  id : String
  title : String
  citation : String
deriving DecidableEq

/-- The dedup key `title + " | " + citation` of `suggestRules`. -/
def suggKey (r : Rule) : String := buildTitle r ++ " | " ++ getCitation r

/-- The row pushed by `suggestRules`. -/
def mkSug (r : Rule) : Sug :=
  ⟨idOf r, (if buildTitle r = "" then "Rule" else buildTitle r), getCitation r⟩

/-- The output loop of `suggestRules`: scan the sorted candidates,
skipping seen keys, stopping at `limit` rows. -/
def suggestLoop (limit : Nat) : List (Rule × Nat) → List String → List Sug → List Sug
  | [], _, out => out
  | item :: rest, seen, out =>
    if limit ≤ out.length then out
    else
      let key := suggKey item.1
      if seen.contains key then suggestLoop limit rest seen out
      else suggestLoop limit rest (key :: seen) (out ++ [mkSug item.1])

/-- The `opts` object of `suggestRules`. -/
structure SuggestOpts where
  q : Option String
  limit : Option Nat := none

/-- The `scored` array of `suggestRules`. -/
def suggestCandidates (rules : List Rule) (queries : List String) : List (Rule × Nat) :=
  rules.filterMap (fun r =>
    let s := scoreForSuggest queries r
    if 0 < s then some (r, s) else none)

/-- `suggestRules(opts)` of the source. -/
def suggestRules (syn : List (String × List String)) (rules : List Rule)
    (opts : SuggestOpts) : List Sug :=
  let q := clean opts.q
  let limit := jsOrNat opts.limit 8
  if q = "" then []
  else
    let queries := expandQueryWithSynonyms syn q
    suggestLoop limit (sortByScore (suggestCandidates rules queries)) [] []

/-- Full dedup-by-key pass over a candidate list (no limit), for stating
that the short-circuiting loop returns a prefix of it. -/
def dedupByKey : List String → List (Rule × Nat) → List Sug
  | _, [] => []
  | seen, item :: rest =>
    if seen.contains (suggKey item.1) then dedupByKey seen rest
    else mkSug item.1 :: dedupByKey (suggKey item.1 :: seen) rest

/-! ### Basic lemmas about the string helpers -/

theorem lcStr_eq_empty_iff (s : String) : lcStr s = "" ↔ s = "" := by
  cases s with
  | mk l => simp [lcStr, lcList, String.ext_iff]

theorem data_eq_nil_iff (s : String) : s.data = [] ↔ s = "" := by
  cases s with
  | mk l => simp [String.ext_iff]

theorem hasInfixS_empty_left (pat : String) (h : pat ≠ "") : hasInfixS "" pat = false := by
  have hd : pat.data ≠ [] := fun hh => h ((data_eq_nil_iff pat).mp hh)
  simp only [hasInfixS, idxOf?]
  rw [if_neg]
  · rfl
  · simp only [List.isPrefixOf_iff_prefix, List.prefix_nil]
    exact hd

theorem wordTest_nil_right (pat : List Char) (h : pat ≠ []) : wordTest pat [] = false := by
  simp [wordTest, wordMatchAt, List.isPrefixOf_iff_prefix]
  intro hp
  exact absurd hp h

/-! ### Claim C1: the scoring formula -/

/-- The record with no fields present. -/
def blankRule : Rule := {}

/-- C1 counterexample: for the empty term and the all-absent record, the
spec formula (substring bonuses for the empty term in every — empty —
field) yields 17 while `scoreRule`'s empty-field guard yields 0, so the
claimed formula does not hold for every term list. -/
theorem scoreRule_spec_cex :
    scoreRule blankRule [""] = 0 ∧ scoreRuleSpec blankRule [""] = 17 ∧
      scoreRule blankRule [""] ≠ scoreRuleSpec blankRule [""] := by decide

theorem termScore_eq_spec_term (r : Rule) (tq : String) (h : tq ≠ "") :
    termScoreWith safeWordRegex r tq =
      (sfieldKeys.map (fun f =>
        (if wordTest (lcStr tq).data (blob r f).data then 5 * weight f else 0) +
        (if hasInfixS (blob r f) (lcStr tq) then weight f else 0))).sum +
      (if hasInfixS (blob r .content) (lcStr tq) then 3 else 0) := by
  have hterm : lcStr tq ≠ "" := fun hh => h ((lcStr_eq_empty_iff tq).mp hh)
  simp only [termScoreWith, safeWordRegex]
  congr 1
  · apply congrArg List.sum
    apply List.map_congr_left
    intro f _
    by_cases hb : blob r f = ""
    · rw [if_pos hb, hb]
      rw [wordTest_nil_right _ (fun hh => hterm (by cases lcStr tq with | mk l => simp_all [String.ext_iff]))]
      rw [hasInfixS_empty_left _ hterm]
      simp
    · rw [if_neg hb]
      simp [Nat.one_mul]
  · by_cases hb : blob r .content = ""
    · rw [hb, hasInfixS_empty_left _ hterm]
      simp
    · simp [hb]

/-- C1 (amended): for every rule record and every list of non-empty
terms, `scoreRule` computes exactly the spec's additive formula; fields
(and the content bonus) that clean to the empty string contribute
nothing, which for non-empty terms is already implied by the formula. -/
theorem scoreRule_eq_spec (r : Rule) (queries : List String)
    (h : ∀ t ∈ queries, t ≠ "") : scoreRule r queries = scoreRuleSpec r queries := by
  unfold scoreRule scoreRuleWith scoreRuleSpec
  apply congrArg List.sum
  apply List.map_congr_left
  intro tq htq
  exact termScore_eq_spec_term r tq (h tq htq)

theorem scoreRule_eq_spec_witness :
    scoreRule { content := some "the infield fly rule" } ["fly"] =
      scoreRuleSpec { content := some "the infield fly rule" } ["fly"] :=
  scoreRule_eq_spec _ _ (by decide)

/-! ### Claim C3: blank queries -/

theorem collapseA_all_space (l : List Char) (h : ∀ c ∈ l, isWs c = true) :
    ∀ b, ∀ c ∈ collapseA b l, c = ' ' := by
  induction l with
  | nil => intro b c hc; simp [collapseA] at hc
  | cons x rest ih =>
    intro b c hc
    have hx : isWs x = true := h x (List.mem_cons_self x rest)
    have hrest : ∀ d ∈ rest, isWs d = true := fun d hd => h d (List.mem_cons_of_mem _ hd)
    rw [collapseA, if_pos hx] at hc
    cases b with
    | true => exact ih hrest true c hc
    | false =>
      rcases List.mem_cons.mp hc with h1 | h2
      · exact h1
      · exact ih hrest true c h2

theorem collapseAux_all_space (l : List Char) (h : ∀ c ∈ l, isWs c = true) :
    ∀ c ∈ collapseAux l, c = ' ' :=
  fun c hc => collapseA_all_space l h false c hc

theorem clean_blank (q : Option String) (h : ∀ c ∈ (q.getD "").data, isWs c = true) :
    clean q = "" := by
  unfold clean cleanStr
  have hsp := collapseAux_all_space _ h
  have : (collapseAux (q.getD "").data).dropWhile isWs = [] := by
    rw [List.dropWhile_eq_nil_iff]
    intro x hx
    rw [hsp x hx]
    rfl
  rw [jsTrim, this]
  rfl

/-- C3: for every query that is empty or whitespace-only, and all limit,
offset and highlight values, `searchRules` returns zero hits and no
results. -/
theorem searchRules_blank_query (syn : List (String × List String)) (rules : List Rule)
    (limit offset : Option Nat) (hl : Bool) (q : Option String)
    (h : ∀ c ∈ (q.getD "").data, isWs c = true) :
    searchRules syn rules ⟨q, limit, offset, hl⟩ = ⟨0, []⟩ := by
  have hq : clean q = "" := clean_blank q h
  simp [searchRules, hq]

theorem searchRules_blank_query_witness :
    searchRules [] [blankRule] ⟨some "   ", some 3, some 1, true⟩ = ⟨0, []⟩ :=
  searchRules_blank_query [] [blankRule] (some 3) (some 1) true (some "   ") (by decide)

/-! ### Claim C9: regex-construction failure in scoring -/

theorem termScoreWith_none (wordRe : String → Option (String → Bool)) (r : Rule)
    (tq : String) (h : wordRe (lcStr tq) = none) :
    termScoreWith wordRe r tq = substrTermScore r tq := by
  simp only [termScoreWith, substrTermScore, h]
  congr 1
  apply congrArg List.sum
  apply List.map_congr_left
  intro f _
  by_cases hb : blob r f = "" <;> by_cases hs : hasInfixS (blob r f) (lcStr tq) <;>
    simp [hb, hs]

/-- C9: when the word-boundary regex for a term cannot be constructed,
that term still contributes exactly its substring bonuses (1 × weight per
non-empty field plus the flat +3 content bonus), and only the 5 × weight
word-boundary bonus is omitted; scoring remains a total function. -/
theorem scoreRule_regex_failure (wordRe : String → Option (String → Bool))
    (r : Rule) (t : String) (qs : List String) (h : wordRe (lcStr t) = none) :
    scoreRuleWith wordRe r (t :: qs) = substrTermScore r t + scoreRuleWith wordRe r qs := by
  simp only [scoreRuleWith, List.map_cons, List.sum_cons, termScoreWith_none wordRe r t h]

theorem scoreRule_regex_failure_witness :
    scoreRuleWith (fun _ => none) { content := some "a balk occurs" } ["balk"] =
      substrTermScore { content := some "a balk occurs" } "balk" +
        scoreRuleWith (fun _ => none) { content := some "a balk occurs" } [] :=
  scoreRule_regex_failure (fun _ => none) _ "balk" [] rfl

/-! ### Claim C6: synonym expansion is a single pass -/

theorem mem_pushIfAbsent (ts : List String) (a t : String) :
    t ∈ pushIfAbsent ts a ↔ t ∈ ts ∨ t = a := by
  unfold pushIfAbsent
  split
  · constructor
    · exact Or.inl
    · rintro (h | rfl)
      · exact h
      · assumption
  · simp

theorem mem_foldl_pushIfAbsent (alts : List String) :
    ∀ ts t, t ∈ alts.foldl pushIfAbsent ts ↔ t ∈ ts ∨ t ∈ alts := by
  induction alts with
  | nil => simp
  | cons a rest ih =>
    intro ts t
    simp only [List.foldl_cons, ih, mem_pushIfAbsent, List.mem_cons]
    tauto

theorem mem_expandStep (base : String) (ts : List String) (kv : String × List String)
    (t : String) :
    t ∈ expandStep base ts kv ↔ t ∈ ts ∨ (hasInfixS base kv.1 = true ∧ t ∈ kv.2) := by
  unfold expandStep
  split
  · rw [mem_foldl_pushIfAbsent]
    tauto
  · constructor
    · exact Or.inl
    · rintro (h | ⟨hmatch, _⟩)
      · exact h
      · exact absurd hmatch (by assumption)

theorem mem_foldl_expandStep (base : String) (syn : List (String × List String)) :
    ∀ ts t, t ∈ syn.foldl (expandStep base) ts ↔
      t ∈ ts ∨ ∃ kv ∈ syn, hasInfixS base kv.1 = true ∧ t ∈ kv.2 := by
  induction syn with
  | nil => simp
  | cons kv rest ih =>
    intro ts t
    simp only [List.foldl_cons, ih, mem_expandStep, List.mem_cons]
    constructor
    · rintro ((h | h) | ⟨kv', hkv', h⟩)
      · exact Or.inl h
      · exact Or.inr ⟨kv, Or.inl rfl, h⟩
      · exact Or.inr ⟨kv', Or.inr hkv', h⟩
    · rintro (h | ⟨kv', hkv' | hkv', h⟩)
      · exact Or.inl (Or.inl h)
      · exact Or.inl (Or.inr (hkv' ▸ h))
      · exact Or.inr ⟨kv', hkv', h⟩

theorem mem_expandQueryWithSynonyms (syn : List (String × List String)) (q t : String) :
    t ∈ expandQueryWithSynonyms syn q ↔
      t = q ∨ ∃ kv ∈ syn, hasInfixS (lcStr q) kv.1 = true ∧ t ∈ kv.2 := by
  unfold expandQueryWithSynonyms dedupKeep
  rw [mem_foldl_pushIfAbsent, mem_foldl_expandStep]
  simp

theorem foldl_pushIfAbsent_of_mem (alts : List String) :
    ∀ ts, (∀ a ∈ alts, a ∈ ts) → alts.foldl pushIfAbsent ts = ts := by
  induction alts with
  | nil => simp
  | cons a rest ih =>
    intro ts h
    have ha : a ∈ ts := h a (List.mem_cons_self a rest)
    simp only [List.foldl_cons, pushIfAbsent, if_pos ha]
    exact ih ts (fun x hx => h x (List.mem_cons_of_mem _ hx))

theorem foldl_expandStep_of_mem (base : String) (syn : List (String × List String)) :
    ∀ ts, (∀ kv ∈ syn, hasInfixS base kv.1 = true → ∀ a ∈ kv.2, a ∈ ts) →
      syn.foldl (expandStep base) ts = ts := by
  induction syn with
  | nil => simp
  | cons kv rest ih =>
    intro ts h
    have hstep : expandStep base ts kv = ts := by
      unfold expandStep
      split
      · exact foldl_pushIfAbsent_of_mem kv.2 ts
          (fun a ha => h kv (List.mem_cons_self kv rest) (by assumption) a ha)
      · rfl
    rw [List.foldl_cons, hstep]
    exact ih ts (fun kv' hkv' => h kv' (List.mem_cons_of_mem _ hkv'))

theorem foldl_pushIfAbsent_nodup (ts : List String) :
    ∀ acc : List String, acc.Nodup → (ts.foldl pushIfAbsent acc).Nodup := by
  induction ts with
  | nil => intro acc h; exact h
  | cons a rest ih =>
    intro acc h
    rw [List.foldl_cons]
    apply ih
    unfold pushIfAbsent
    split
    · exact h
    · rename_i hna
      exact ((List.perm_append_singleton a acc).nodup_iff).mpr (List.nodup_cons.mpr ⟨hna, h⟩)

theorem dedupKeep_nodup (ts : List String) : (dedupKeep ts).Nodup :=
  foldl_pushIfAbsent_nodup ts [] List.nodup_nil

theorem dedupKeep_of_nodup (ts : List String) (h : ts.Nodup) : dedupKeep ts = ts := by
  unfold dedupKeep
  suffices hgen : ∀ acc : List String, (∀ a ∈ ts, a ∉ acc) → ts.foldl pushIfAbsent acc = acc ++ ts by
    simpa using hgen [] (by simp)
  induction ts with
  | nil => simp
  | cons a rest ih =>
    intro acc hd
    have ha : a ∉ acc := hd a (List.mem_cons_self a rest)
    rw [List.foldl_cons, pushIfAbsent, if_neg ha]
    rw [ih (List.Nodup.of_cons h) (acc ++ [a]) ?_]
    · simp
    · intro x hx hmem
      rcases List.mem_append.mp hmem with h1 | h2
      · exact hd x (List.mem_cons_of_mem _ hx) h1
      · rw [List.mem_singleton.mp h2] at hx
        exact (List.nodup_cons.mp h).1 hx

/-- C6: synonym expansion is a single pass over the original query only:
a string is in the expanded list exactly when it is the query itself or an
alternate of a synonym key occurring as a substring of the lowercased
original query (so alternates are never themselves re-expanded), and
running the expansion pass again over the already-expanded term list (same
original query as the matching base) returns it unchanged. -/
theorem expandQuery_single_pass (syn : List (String × List String)) (q : String) :
    (∀ t, t ∈ expandQueryWithSynonyms syn q ↔
      t = q ∨ ∃ kv ∈ syn, hasInfixS (lcStr q) kv.1 = true ∧ t ∈ kv.2) ∧
    dedupKeep (syn.foldl (expandStep (lcStr q)) (expandQueryWithSynonyms syn q)) =
      expandQueryWithSynonyms syn q := by
  refine ⟨mem_expandQueryWithSynonyms syn q, ?_⟩
  rw [foldl_expandStep_of_mem]
  · exact dedupKeep_of_nodup _ (dedupKeep_nodup _)
  · intro kv hkv hmatch a ha
    exact (mem_expandQueryWithSynonyms syn q a).mpr (Or.inr ⟨kv, hkv, hmatch, ha⟩)

theorem expandQuery_single_pass_witness :
    expandQueryWithSynonyms [("infield fly", ["ifr"])] "the Infield Fly rule" =
      ["the Infield Fly rule", "ifr"] ∧
    dedupKeep ([("infield fly", ["ifr"])].foldl (expandStep (lcStr "the Infield Fly rule"))
        (expandQueryWithSynonyms [("infield fly", ["ifr"])] "the Infield Fly rule")) =
      expandQueryWithSynonyms [("infield fly", ["ifr"])] "the Infield Fly rule" :=
  ⟨by decide, (expandQuery_single_pass [("infield fly", ["ifr"])] "the Infield Fly rule").2⟩

/-! ### Claim C8: direct lookup by id and citation -/

theorem find?_eq_some_first {α : Type} (p : α → Bool) (l : List α) (a : α) :
    l.find? p = some a ↔
      p a = true ∧ ∃ l1 l2, l = l1 ++ a :: l2 ∧ ∀ x ∈ l1, p x = false := by
  induction l with
  | nil => simp
  | cons x rest ih =>
    rw [List.find?_cons]
    split
    · rename_i hx
      constructor
      · intro h
        injection h with h
        subst h
        exact ⟨hx, [], rest, rfl, by simp⟩
      · rintro ⟨hpa, l1, l2, heq, hfl⟩
        cases l1 with
        | nil => simp at heq; rw [heq.1]
        | cons y l1' =>
          have hy : y = x := by
            have := congrArg (fun l => l.head?) heq
            simpa using this.symm
          have : x ∈ y :: l1' := by rw [hy]; exact List.mem_cons_self x l1'
          rw [hfl x this] at hx
          cases hx
    · rename_i hx
      rw [ih]
      constructor
      · rintro ⟨hpa, l1, l2, heq, hfl⟩
        refine ⟨hpa, x :: l1, l2, by simp [heq], ?_⟩
        intro y hy
        rcases List.mem_cons.mp hy with rfl | hmem
        · simpa using hx
        · exact hfl y hmem
      · rintro ⟨hpa, l1, l2, heq, hfl⟩
        cases l1 with
        | nil =>
          simp at heq
          rw [heq.1] at hx
          rw [hpa] at hx
          cases hx
        | cons y l1' =>
          have hy : y = x := by
            have := congrArg (fun l => l.head?) heq
            simpa using this.symm
          have htl : rest = l1' ++ a :: l2 := by
            have := congrArg (fun l => l.tail) heq
            simpa using this
          exact ⟨hpa, l1', l2, htl, fun z hz => hfl z (List.mem_cons_of_mem _ hz)⟩

/-- C8 counterexample: `findByCitation` never matches a record whose
candidate citation fields all normalize to the empty string, even when the
input citation also normalizes to the empty string — the claimed
"first record whose normalized field equals the normalized input" would be
the record itself. -/
theorem findByCitation_cex :
    findByCitation [blankRule] (some "") = none ∧
      lcStr (normalizeCitation blankRule.citation) = lcStr (normalizeCitation (some "")) := by
  decide

/-- C8 (amended): `findById` returns the first record in store order one
of whose trimmed, string-cast `id`, `rule_id`, `ruleId` fields equals the
likewise-normalized input (else `none`), and `findByCitation` returns the
first record in store order one of whose trimmed, whitespace-collapsed,
lowercased `citation`, `citation1`, `rule_id`, `ruleId` fields is
non-empty and equals the likewise-normalized input (else `none`);
a record all of whose normalized citation candidates are empty never
matches. -/
theorem find_lookup_first (rules : List Rule) (idq cq : Option String) :
    (∀ w r, idMatches w r =
      (normalizeId r.id == w || (normalizeId r.rule_id == w || normalizeId r.ruleId == w))) ∧
    (findById rules idq = none ↔ ∀ r ∈ rules, idMatches (normalizeId idq) r = false) ∧
    (∀ r, findById rules idq = some r ↔
      idMatches (normalizeId idq) r = true ∧
      ∃ l1 l2, rules = l1 ++ r :: l2 ∧ ∀ x ∈ l1, idMatches (normalizeId idq) x = false) ∧
    (∀ w r, citMatches w r =
      ((lcStr (normalizeCitation r.citation) != "" && lcStr (normalizeCitation r.citation) == w) ||
       ((lcStr (normalizeCitation r.citation1) != "" && lcStr (normalizeCitation r.citation1) == w) ||
        ((lcStr (normalizeCitation r.rule_id) != "" && lcStr (normalizeCitation r.rule_id) == w) ||
         (lcStr (normalizeCitation r.ruleId) != "" && lcStr (normalizeCitation r.ruleId) == w))))) ∧
    (findByCitation rules cq = none ↔
      ∀ r ∈ rules, citMatches (lcStr (normalizeCitation cq)) r = false) ∧
    (∀ r, findByCitation rules cq = some r ↔
      citMatches (lcStr (normalizeCitation cq)) r = true ∧
      ∃ l1 l2, rules = l1 ++ r :: l2 ∧
        ∀ x ∈ rules, x ∈ l1 → citMatches (lcStr (normalizeCitation cq)) x = false) := by
  refine ⟨?_, ?_, ?_, ?_, ?_, ?_⟩
  · intro w r
    simp [idMatches, List.any, Bool.or_assoc]
  · unfold findById
    rw [List.find?_eq_none]
    constructor
    · intro h r hr
      have := h r hr
      simpa using this
    · intro h r hr
      simp [h r hr]
  · intro r
    unfold findById
    rw [find?_eq_some_first]
  · intro w r
    simp [citMatches, List.any, Bool.or_assoc]
  · unfold findByCitation
    rw [List.find?_eq_none]
    constructor
    · intro h r hr
      have := h r hr
      simpa using this
    · intro h r hr
      simp [h r hr]
  · intro r
    unfold findByCitation
    rw [find?_eq_some_first]
    constructor
    · rintro ⟨hp, l1, l2, heq, hfl⟩
      exact ⟨hp, l1, l2, heq, fun x _ hx1 => hfl x hx1⟩
    · rintro ⟨hp, l1, l2, heq, hfl⟩
      refine ⟨hp, l1, l2, heq, fun x hx1 => hfl x ?_ hx1⟩
      rw [heq]
      exact List.mem_append.mpr (Or.inl hx1)

theorem find_lookup_first_witness :
    findById [{ rule_id := some "9.01" }] (some "9.01") = some { rule_id := some "9.01" } ∧
      findById [{ rule_id := some "9.01" }] (some "nonexistent") = none :=
  ⟨((find_lookup_first [{ rule_id := some "9.01" }] (some "9.01") none).2.2.1
      { rule_id := some "9.01" }).mpr ⟨by decide, [], [], rfl, by simp⟩,
   (find_lookup_first [{ rule_id := some "9.01" }] (some "nonexistent") none).2.1.mpr
      (by decide)⟩

/-! ### Sorting lemmas shared by the search and suggest claims -/

theorem insertDesc_perm (x : Rule × Nat) (l : List (Rule × Nat)) :
    List.Perm (insertDesc x l) (x :: l) := by
  induction l with
  | nil => exact List.Perm.refl _
  | cons y rest ih =>
    rw [insertDesc]
    split
    · exact List.Perm.refl _
    · exact (List.Perm.cons y ih).trans (List.Perm.swap x y rest)

theorem sortByScore_perm (l : List (Rule × Nat)) : List.Perm (sortByScore l) l := by
  induction l with
  | nil => exact List.Perm.refl _
  | cons x rest ih =>
    unfold sortByScore at *
    rw [List.foldr_cons]
    exact (insertDesc_perm x _).trans (List.Perm.cons x ih)

theorem sortByScore_length (l : List (Rule × Nat)) : (sortByScore l).length = l.length :=
  (sortByScore_perm l).length_eq

theorem insertDesc_pairwise (x : Rule × Nat) (l : List (Rule × Nat))
    (h : l.Pairwise (fun a b => b.2 ≤ a.2)) :
    (insertDesc x l).Pairwise (fun a b => b.2 ≤ a.2) := by
  induction l with
  | nil => simp [insertDesc]
  | cons y rest ih =>
    rw [insertDesc]
    rcases List.pairwise_cons.mp h with ⟨hy, hrest⟩
    split
    · rename_i hlt
      refine List.pairwise_cons.mpr ⟨?_, h⟩
      intro z hz
      rcases List.mem_cons.mp hz with rfl | hmem
      · exact Nat.le_of_lt hlt
      · exact Nat.le_trans (hy z hmem) (Nat.le_of_lt hlt)
    · rename_i hge
      refine List.pairwise_cons.mpr ⟨?_, ih hrest⟩
      intro z hz
      have hz' : z ∈ x :: rest := (insertDesc_perm x rest).mem_iff.mp hz
      rcases List.mem_cons.mp hz' with rfl | hmem
      · exact Nat.le_of_not_lt hge
      · exact hy z hmem

theorem sortByScore_pairwise (l : List (Rule × Nat)) :
    (sortByScore l).Pairwise (fun a b => b.2 ≤ a.2) := by
  induction l with
  | nil => simp [sortByScore]
  | cons x rest ih =>
    unfold sortByScore at *
    rw [List.foldr_cons]
    exact insertDesc_pairwise x _ ih

theorem searchRules_results_length (syn : List (String × List String)) (rules : List Rule)
    (opts : SearchOpts) (h : clean opts.q ≠ "") :
    (searchRules syn rules opts).results.length =
      min (jsOrNat opts.limit 5) ((searchRules syn rules opts).hits - jsOrNat opts.offset 0) := by
  simp only [searchRules, if_neg h]
  simp [sortByScore_length]

/-! ### Claim C10: limit=0 falls back to the defaults -/

/-- C10: `parseIntSafe` accepts an explicit 0, but `searchRules` replaces
a falsy limit with the default 5 and `suggestRules` with the default 8, so
`limit=0` behaves exactly like the default limit and, whenever there are
matches (and offset 0), returns a non-empty page rather than an empty
one. -/
theorem limit_zero_not_honored :
    (parseIntSafe (some "0") 99 = 0) ∧
    (∀ syn rules q off hl,
      searchRules syn rules ⟨q, some 0, off, hl⟩ = searchRules syn rules ⟨q, some 5, off, hl⟩) ∧
    (∀ syn rules q,
      suggestRules syn rules ⟨q, some 0⟩ = suggestRules syn rules ⟨q, some 8⟩) ∧
    (∀ syn rules q hl, 0 < (searchRules syn rules ⟨q, some 0, none, hl⟩).hits →
      (searchRules syn rules ⟨q, some 0, none, hl⟩).results ≠ []) := by
  refine ⟨by decide, fun syn rules q off hl => rfl, fun syn rules q => rfl, ?_⟩
  intro syn rules q hl hpos
  by_cases hq : clean q = ""
  · have hz : searchRules syn rules ⟨q, some 0, none, hl⟩ = ⟨0, []⟩ := by
      simp [searchRules, show clean (SearchOpts.mk q (some 0) none hl).q = "" from hq]
    rw [hz] at hpos
    exact absurd hpos (by simp)
  · intro hnil
    have hlen := searchRules_results_length syn rules ⟨q, some 0, none, hl⟩ hq
    rw [hnil] at hlen
    simp [jsOrNat] at hlen
    omega

theorem limit_zero_not_honored_witness :
    parseIntSafe (some "0") 99 = 0 ∧
      (searchRules [] [{ content := some "a balk occurs" }]
          ⟨some "balk", some 0, none, false⟩).results ≠ [] :=
  ⟨limit_zero_not_honored.1,
   limit_zero_not_honored.2.2.2 [] [{ content := some "a balk occurs" }]
     (some "balk") false (by decide)⟩

/-! ### Claim C2: ranking, hit count and paging of searchRules -/

theorem searchRules_eq (syn : List (String × List String)) (rules : List Rule)
    (opts : SearchOpts) (h : clean opts.q ≠ "") :
    searchRules syn rules opts =
      ⟨(searchCandidates rules (expandQueryWithSynonyms syn (clean opts.q))).length,
       (((sortByScore (searchCandidates rules
            (expandQueryWithSynonyms syn (clean opts.q)))).drop
          (jsOrNat opts.offset 0)).take (jsOrNat opts.limit 5)).map
         (formatHit (expandQueryWithSynonyms syn (clean opts.q)) opts.doHighlight)⟩ := by
  simp only [searchRules, if_neg h]

theorem searchCandidates_length (rules : List Rule) (queries : List String) :
    (searchCandidates rules queries).length =
      (rules.filter (fun r => decide (0 < scoreRule r queries))).length := by
  induction rules with
  | nil => rfl
  | cons r rest ih =>
    by_cases hs : 0 < scoreRule r queries <;>
      simp [searchCandidates, List.filterMap_cons, List.filter_cons, hs] at * <;>
      omega

theorem mem_searchCandidates (rules : List Rule) (queries : List String)
    (item : Rule × Nat) (h : item ∈ searchCandidates rules queries) :
    item.2 = scoreRule item.1 queries ∧ 0 < item.2 := by
  unfold searchCandidates at h
  rcases List.mem_filterMap.mp h with ⟨r, _, hf⟩
  by_cases hs : 0 < scoreRule r queries
  · simp only [hs, if_pos] at hf
    rw [← Option.some.inj hf]
    exact ⟨rfl, hs⟩
  · simp [hs] at hf

theorem slice_sublist (l : List (Rule × Nat)) (o k : Nat) :
    ((l.drop o).take k).Sublist l :=
  ((l.drop o).take_sublist k).trans (l.drop_sublist o)

/-- C2: for every non-empty (after cleaning) query, `searchRules` reports
`hits` as the number of positively-scored records before slicing, every
returned result has a positive score, the returned scores are
non-increasing, and the page is the `[offset, offset+limit)` slice of the
sorted candidate list, so its length is `min limit (hits - offset)`. -/
theorem searchRules_ranking (syn : List (String × List String)) (rules : List Rule)
    (opts : SearchOpts) (h : clean opts.q ≠ "") :
    (searchRules syn rules opts).hits =
      (rules.filter (fun r =>
        decide (0 < scoreRule r (expandQueryWithSynonyms syn (clean opts.q))))).length ∧
    (∀ hit ∈ (searchRules syn rules opts).results, 0 < hit.score) ∧
    ((searchRules syn rules opts).results.map SearchHit.score).Pairwise (fun a b => b ≤ a) ∧
    (searchRules syn rules opts).results.length =
      min (jsOrNat opts.limit 5) ((searchRules syn rules opts).hits - jsOrNat opts.offset 0) := by
  rw [searchRules_eq syn rules opts h]
  refine ⟨searchCandidates_length rules _, ?_, ?_, ?_⟩
  · intro hit hm
    rcases List.mem_map.mp hm with ⟨item, hitem, rfl⟩
    have hmem : item ∈ searchCandidates rules (expandQueryWithSynonyms syn (clean opts.q)) :=
      (sortByScore_perm _).mem_iff.mp ((slice_sublist _ _ _).mem hitem)
    exact (mem_searchCandidates _ _ item hmem).2
  · rw [List.map_map]
    apply List.pairwise_map.mpr
    exact ((sortByScore_pairwise _).sublist (slice_sublist _ _ _))
  · simp [sortByScore_length]

theorem searchRules_ranking_witness :
    (searchRules [] (List.replicate 10 { content := some "the balk rule" })
        ⟨some "balk", some 3, some 0, false⟩).hits = 10 ∧
    (searchRules [] (List.replicate 10 { content := some "the balk rule" })
        ⟨some "balk", some 3, some 0, false⟩).results.length = 3 := by
  have h := searchRules_ranking [] (List.replicate 10 { content := some "the balk rule" })
      ⟨some "balk", some 3, some 0, false⟩ (by decide)
  refine ⟨?_, ?_⟩
  · rw [h.1]
    decide
  · rw [h.2.2.2, h.1]
    decide

/-! ### Claim C7: suggestions are deduplicated and limited -/

theorem ite_title_ne (a b : String) :
    (if a != "" then a else if b != "" then b else "Rule") ≠ "" := by
  by_cases hj : a = ""
  · rw [if_neg (by simp [hj])]
    by_cases hs : b = ""
    · rw [if_neg (by simp [hs])]
      decide
    · rw [if_pos (by simpa using hs)]
      exact hs
  · rw [if_pos (by simpa using hj)]
    exact hj

theorem buildTitle_ne_empty (r : Rule) : buildTitle r ≠ "" := by
  unfold buildTitle
  exact ite_title_ne _ _

theorem mkSug_eq (r : Rule) : mkSug r = ⟨idOf r, buildTitle r, getCitation r⟩ := by
  simp only [mkSug, if_neg (buildTitle_ne_empty r)]

theorem mkSug_key (r : Rule) :
    (mkSug r).title ++ " | " ++ (mkSug r).citation = suggKey r := by
  rw [mkSug_eq]
  rfl

theorem dedupByKey_key_notin : ∀ (l : List (Rule × Nat)) (seen : List String) (s : Sug),
    s ∈ dedupByKey seen l → seen.contains (s.title ++ " | " ++ s.citation) = false := by
  intro l
  induction l with
  | nil => intro seen s hs; simp [dedupByKey] at hs
  | cons item rest ih =>
    intro seen s hs
    rw [dedupByKey] at hs
    split at hs
    · exact ih seen s hs
    · rename_i hcon
      rcases List.mem_cons.mp hs with rfl | hmem
      · rw [mkSug_key]
        simpa using hcon
      · have htl := ih (suggKey item.1 :: seen) s hmem
        simp only [List.contains_cons, Bool.or_eq_false_iff] at htl
        exact htl.2

theorem dedupByKey_pairwise : ∀ (l : List (Rule × Nat)) (seen : List String),
    (dedupByKey seen l).Pairwise
      (fun a b => a.title ++ " | " ++ a.citation ≠ b.title ++ " | " ++ b.citation) := by
  intro l
  induction l with
  | nil => intro seen; simp [dedupByKey]
  | cons item rest ih =>
    intro seen
    rw [dedupByKey]
    split
    · exact ih seen
    · refine List.pairwise_cons.mpr ⟨?_, ih _⟩
      intro b hb
      have hbk := dedupByKey_key_notin rest (suggKey item.1 :: seen) b hb
      rw [mkSug_key]
      intro heq
      rw [← heq] at hbk
      simp [List.contains_cons] at hbk

theorem suggestLoop_eq_dedup (limit : Nat) :
    ∀ (l : List (Rule × Nat)) (seen : List String) (out : List Sug), out.length ≤ limit →
      suggestLoop limit l seen out = out ++ (dedupByKey seen l).take (limit - out.length) := by
  intro l
  induction l with
  | nil => intro seen out h; simp [suggestLoop, dedupByKey]
  | cons item rest ih =>
    intro seen out hle
    rw [suggestLoop, dedupByKey]
    by_cases hfull : limit ≤ out.length
    · rw [if_pos hfull]
      have h0 : limit - out.length = 0 := by omega
      rw [h0]
      simp
    · rw [if_neg hfull]
      by_cases hcon : seen.contains (suggKey item.1)
      · rw [if_pos hcon, if_pos hcon]
        exact ih seen out hle
      · rw [if_neg hcon, if_neg hcon]
        rw [ih (suggKey item.1 :: seen) (out ++ [mkSug item.1]) (by simp; omega)]
        have harith : limit - out.length = (limit - (out ++ [mkSug item.1]).length) + 1 := by
          simp
          omega
        rw [harith, List.take_succ_cons]
        simp

/-- C7: `suggestRules` never returns two rows with identical
(title, citation) pairs, returns at most `limit` rows, and (for a
non-blank query) returns exactly the first `limit` rows of the full
dedup-by-key pass over the score-sorted candidate list — which is what
stopping as soon as `limit` unique rows are collected produces. -/
theorem suggest_dedup_limit (syn : List (String × List String)) (rules : List Rule)
    (opts : SuggestOpts) :
    ((suggestRules syn rules opts).Pairwise
      (fun a b => ¬(a.title = b.title ∧ a.citation = b.citation))) ∧
    (suggestRules syn rules opts).length ≤ jsOrNat opts.limit 8 ∧
    (clean opts.q ≠ "" →
      suggestRules syn rules opts =
        (dedupByKey [] (sortByScore (suggestCandidates rules
          (expandQueryWithSynonyms syn (clean opts.q))))).take (jsOrNat opts.limit 8)) := by
  by_cases hq : clean opts.q = ""
  · refine ⟨by simp [suggestRules, hq], by simp [suggestRules, hq], fun hne => absurd hq hne⟩
  · have heq : suggestRules syn rules opts =
        (dedupByKey [] (sortByScore (suggestCandidates rules
          (expandQueryWithSynonyms syn (clean opts.q))))).take (jsOrNat opts.limit 8) := by
      simp only [suggestRules, if_neg hq]
      rw [suggestLoop_eq_dedup _ _ [] [] (Nat.zero_le _)]
      simp
    refine ⟨?_, ?_, fun _ => heq⟩
    · rw [heq]
      refine ((dedupByKey_pairwise _ []).sublist (List.take_sublist _ _)).imp ?_
      intro a b hk hab
      exact hk (by rw [hab.1, hab.2])
    · rw [heq]
      simp

theorem suggest_dedup_limit_witness :
    suggestRules [] [{ title := some "Balk", content := some "a balk" },
        { title := some "Balk", content := some "the balk" }] ⟨some "balk", none⟩ =
      (dedupByKey [] (sortByScore (suggestCandidates
        [{ title := some "Balk", content := some "a balk" },
         { title := some "Balk", content := some "the balk" }]
        (expandQueryWithSynonyms [] (clean (some "balk")))))).take (jsOrNat none 8) :=
  (suggest_dedup_limit [] [{ title := some "Balk", content := some "a balk" },
      { title := some "Balk", content := some "the balk" }] ⟨some "balk", none⟩).2.2
    (by decide)

/-! ### Lemmas on indexOf and the excerpt window -/

theorem idxOf?_nil_pat (hay : List Char) : idxOf? hay [] = some 0 := by
  cases hay <;> simp [idxOf?, List.isPrefixOf_iff_prefix]

theorem idxOf?_bound : ∀ (hay pat : List Char) (i : Nat), idxOf? hay pat = some i →
    i + pat.length ≤ hay.length := by
  intro hay
  induction hay with
  | nil =>
    intro pat i h
    rw [idxOf?] at h
    split at h
    · rename_i hp
      injection h with h'
      subst h'
      simpa using (List.isPrefixOf_iff_prefix.mp hp).length_le
    · cases h
  | cons c rest ih =>
    intro pat i h
    rw [idxOf?] at h
    split at h
    · rename_i hp
      injection h with h'
      subst h'
      simpa using (List.isPrefixOf_iff_prefix.mp hp).length_le
    · rcases Option.map_eq_some'.mp h with ⟨j, hj, rfl⟩
      have := ih pat j hj
      simp only [List.length_cons]
      omega

theorem idxOf?_lt (hay pat : List Char) (i : Nat) (hhay : hay ≠ [])
    (h : idxOf? hay pat = some i) : i < hay.length := by
  by_cases hp : pat = []
  · subst hp
    rw [idxOf?_nil_pat] at h
    injection h with h'
    subst h'
    exact List.length_pos.mpr hhay
  · have hb := idxOf?_bound hay pat i h
    have hp1 : 1 ≤ pat.length := by
      cases pat with
      | nil => exact absurd rfl hp
      | cons x xs => simp
    omega

theorem idxOf?_first : ∀ (hay pat : List Char) (i : Nat), idxOf? hay pat = some i →
    ∀ j, pat.isPrefixOf (hay.drop j) = true → i ≤ j := by
  intro hay
  induction hay with
  | nil =>
    intro pat i h j _
    rw [idxOf?] at h
    split at h
    · injection h with h'
      omega
    · cases h
  | cons c rest ih =>
    intro pat i h j hj
    rw [idxOf?] at h
    split at h
    · injection h with h'
      omega
    · rename_i hnp
      rcases Option.map_eq_some'.mp h with ⟨i', hi', rfl⟩
      cases j with
      | zero => exact absurd (by simpa using hj) hnp
      | succ j' =>
        have := ih pat i' hi' j' (by simpa using hj)
        omega

theorem idxOf?_none_no_occ : ∀ (hay pat : List Char), idxOf? hay pat = none →
    ∀ j, pat.isPrefixOf (hay.drop j) = false := by
  intro hay
  induction hay with
  | nil =>
    intro pat h j
    rw [idxOf?] at h
    split at h
    · cases h
    · rename_i hp
      simp only [List.drop_nil]
      exact Bool.not_eq_true _ ▸ by simpa using hp
  | cons c rest ih =>
    intro pat h j
    rw [idxOf?] at h
    split at h
    · cases h
    · rename_i hnp
      have hrest : idxOf? rest pat = none := by
        cases hr : idxOf? rest pat with
        | none => rfl
        | some k => rw [hr] at h; cases h
      cases j with
      | zero =>
        simp only [List.drop_zero]
        exact Bool.not_eq_true _ ▸ by simpa using hnp
      | succ j' => simpa using ih pat hrest j'

theorem earliestFold_pred (base : List Char) (C : Nat → Prop) :
    ∀ (qs : List String) (acc : Option Nat),
      (∀ i, acc = some i → C i) →
      (∀ q ∈ qs, ∀ i, idxOf? base (lcList q.data) = some i → C i) →
      ∀ j, qs.foldl (fun acc q =>
          match idxOf? base (lcList q.data) with
          | none => acc
          | some idx =>
            match acc with
            | none => some idx
            | some cur => if idx < cur then some idx else acc) acc = some j → C j := by
  intro qs
  induction qs with
  | nil =>
    intro acc hacc _ j hj
    exact hacc j (by simpa using hj)
  | cons q rest ih =>
    intro acc hacc hqs j hj
    rw [List.foldl_cons] at hj
    refine ih _ ?_ (fun q' hq' => hqs q' (List.mem_cons_of_mem _ hq')) j hj
    intro i hi
    simp only at hi
    cases hq : idxOf? base (lcList q.data) with
    | none =>
      rw [hq] at hi
      exact hacc i hi
    | some idx =>
      rw [hq] at hi
      cases acc with
      | none =>
        have : idx = i := by simpa using hi
        exact this ▸ hqs q (List.mem_cons_self q rest) idx hq
      | some cur =>
        by_cases hlt : idx < cur
        · have : idx = i := by simpa [hlt] using hi
          exact this ▸ hqs q (List.mem_cons_self q rest) idx hq
        · have : cur = i := by simpa [hlt] using hi
          exact this ▸ hacc cur rfl

theorem earliestFold_le (base : List Char) :
    ∀ (qs : List String) (acc : Option Nat) (f : Nat),
      qs.foldl (fun acc q =>
          match idxOf? base (lcList q.data) with
          | none => acc
          | some idx =>
            match acc with
            | none => some idx
            | some cur => if idx < cur then some idx else acc) acc = some f →
      (∀ a, acc = some a → f ≤ a) ∧
      (∀ q ∈ qs, ∀ i, idxOf? base (lcList q.data) = some i → f ≤ i) := by
  intro qs
  induction qs with
  | nil =>
    intro acc f hf
    rw [List.foldl_nil] at hf
    refine ⟨?_, by simp⟩
    intro a ha
    rw [ha] at hf
    injection hf with h'
    omega
  | cons q rest ih =>
    intro acc f hf
    rw [List.foldl_cons] at hf
    cases hq : idxOf? base (lcList q.data) with
    | none =>
      simp only [hq] at hf
      have H := ih acc f hf
      refine ⟨H.1, ?_⟩
      intro q' hq' i hi
      rcases List.mem_cons.mp hq' with rfl | hmem
      · rw [hq] at hi
        cases hi
      · exact H.2 q' hmem i hi
    | some idx =>
      simp only [hq] at hf
      cases acc with
      | none =>
        simp only at hf
        have H := ih (some idx) f hf
        refine ⟨by simp, ?_⟩
        intro q' hq' i hi
        rcases List.mem_cons.mp hq' with rfl | hmem
        · rw [hq] at hi
          have hii : idx = i := by simpa using hi
          exact hii ▸ H.1 idx rfl
        · exact H.2 q' hmem i hi
      | some cur =>
        simp only at hf
        by_cases hlt : idx < cur
        · rw [if_pos hlt] at hf
          have H := ih (some idx) f hf
          have hfi : f ≤ idx := H.1 idx rfl
          refine ⟨?_, ?_⟩
          · intro a ha
            injection ha with ha'
            omega
          · intro q' hq' i hi
            rcases List.mem_cons.mp hq' with rfl | hmem
            · rw [hq] at hi
              have hii : idx = i := by simpa using hi
              omega
            · exact H.2 q' hmem i hi
        · rw [if_neg hlt] at hf
          have H := ih (some cur) f hf
          have hfc : f ≤ cur := H.1 cur rfl
          refine ⟨?_, ?_⟩
          · intro a ha
            injection ha with ha'
            omega
          · intro q' hq' i hi
            rcases List.mem_cons.mp hq' with rfl | hmem
            · rw [hq] at hi
              have hii : idx = i := by simpa using hi
              omega
            · exact H.2 q' hmem i hi

theorem earliestFold_none (base : List Char) :
    ∀ (qs : List String) (acc : Option Nat),
      qs.foldl (fun acc q =>
          match idxOf? base (lcList q.data) with
          | none => acc
          | some idx =>
            match acc with
            | none => some idx
            | some cur => if idx < cur then some idx else acc) acc = none →
      acc = none ∧ ∀ q ∈ qs, idxOf? base (lcList q.data) = none := by
  intro qs
  induction qs with
  | nil =>
    intro acc hf
    rw [List.foldl_nil] at hf
    exact ⟨hf, by simp⟩
  | cons q rest ih =>
    intro acc hf
    rw [List.foldl_cons] at hf
    cases hq : idxOf? base (lcList q.data) with
    | none =>
      simp only [hq] at hf
      have H := ih acc hf
      refine ⟨H.1, ?_⟩
      intro q' hq'
      rcases List.mem_cons.mp hq' with rfl | hmem
      · exact hq
      · exact H.2 q' hmem
    | some idx =>
      simp only [hq] at hf
      cases acc with
      | none =>
        simp only at hf
        have H := ih (some idx) hf
        cases H.1
      | some cur =>
        simp only at hf
        by_cases hlt : idx < cur
        · rw [if_pos hlt] at hf
          cases (ih (some idx) hf).1
        · rw [if_neg hlt] at hf
          cases (ih (some cur) hf).1

theorem jsTrimEnd_length_le (l : List Char) : (jsTrimEnd l).length ≤ l.length := by
  have h : (l.reverse.dropWhile isWs).Sublist l.reverse := List.dropWhile_sublist isWs
  simpa [jsTrimEnd] using h.length_le

theorem jsTrim_length_le (l : List Char) : (jsTrim l).length ≤ l.length := by
  have h : (l.dropWhile isWs).Sublist l := List.dropWhile_sublist isWs
  exact le_trans (jsTrimEnd_length_le (l.dropWhile isWs)) h.length_le

theorem jsTrimEnd_prefixOf (l : List Char) : jsTrimEnd l <+: l := by
  have h : (l.reverse.dropWhile isWs) <:+ l.reverse := List.dropWhile_suffix isWs
  have h2 := List.reverse_prefix.mpr h
  simpa [jsTrimEnd] using h2

theorem lcList_length (l : List Char) : (lcList l).length = l.length := by
  simp [lcList]

theorem lcList_ne_nil (l : List Char) (h : l ≠ []) : lcList l ≠ [] := by
  cases l with
  | nil => exact absurd rfl h
  | cons c rest => simp [lcList]

/-- C4: the excerpt is at most the maximum length plus the ellipsis
markers; when some term occurs case-insensitively in the cleaned text,
`foundAt` is the earliest occurrence offset of any term, the window starts
half the maximum length before it (clamped at the text start) and contains
that occurrence, and a leading/trailing marker is present exactly when the
window misses the start/end of the text; when no term occurs, the result
is the text itself if it fits, else a right-trimmed prefix of at most
`MAX - 1` characters plus an ellipsis. -/
theorem makeExcerpt_window (text : String) (queries : List String) (maxLen MAX : Nat)
    (hMAX : MAX = if maxLen = 0 then 240 else maxLen) :
    (makeExcerpt text queries maxLen).length ≤ MAX + 4 ∧
    (∀ foundAt, earliestIdx (lcList (cleanStr text).data) queries = some foundAt →
      cleanStr text ≠ "" →
      (∃ q ∈ queries, idxOf? (lcList (cleanStr text).data) (lcList q.data) = some foundAt) ∧
      (∀ q ∈ queries, ∀ j,
        (lcList q.data).isPrefixOf ((lcList (cleanStr text).data).drop j) = true →
          foundAt ≤ j) ∧
      (foundAt - MAX / 2 ≤ foundAt ∧
        foundAt < min (cleanStr text).data.length (foundAt - MAX / 2 + MAX)) ∧
      makeExcerpt text queries maxLen = String.mk
        ((if 0 < foundAt - MAX / 2 then ("… ").data else []) ++
         jsTrim (((cleanStr text).data.drop (foundAt - MAX / 2)).take
           (min (cleanStr text).data.length (foundAt - MAX / 2 + MAX) - (foundAt - MAX / 2))) ++
         (if min (cleanStr text).data.length (foundAt - MAX / 2 + MAX) < (cleanStr text).data.length
          then (" …").data else []))) ∧
    (earliestIdx (lcList (cleanStr text).data) queries = none → cleanStr text ≠ "" →
      ((cleanStr text).length ≤ MAX ∧ makeExcerpt text queries maxLen = cleanStr text) ∨
      (∃ p, p <+: (cleanStr text).data ∧ p.length ≤ MAX - 1 ∧
        makeExcerpt text queries maxLen = String.mk (p ++ ['…']))) := by
  subst hMAX
  have hM1 : 1 ≤ (if maxLen = 0 then 240 else maxLen) := by
    split
    · omega
    · rename_i hm
      omega
  refine ⟨?_, ?_, ?_⟩
  · by_cases ht : cleanStr text = ""
    · simp only [makeExcerpt, if_pos ht]
      simp
    · simp only [makeExcerpt, if_neg ht]
      cases hE : earliestIdx (lcList (cleanStr text).data) queries with
      | none =>
        simp only [excerptCore, hE]
        by_cases hlen : (cleanStr text).data.length ≤ (if maxLen = 0 then 240 else maxLen)
        · rw [if_pos hlen]
          simp only [String.length]
          omega
        · rw [if_neg hlen]
          have h1 := jsTrimEnd_length_le ((cleanStr text).data.take
            ((if maxLen = 0 then 240 else maxLen) - 1))
          have h2 := List.length_take_le ((if maxLen = 0 then 240 else maxLen) - 1)
            (cleanStr text).data
          simp only [String.length, List.length_append, List.length_cons, List.length_nil]
          omega
      | some f =>
        simp only [excerptCore, hE]
        have h1 : (if 0 < f - (if maxLen = 0 then 240 else maxLen) / 2
            then ['…', ' '] else ([] : List Char)).length ≤ 2 := by
          by_cases hc : 0 < f - (if maxLen = 0 then 240 else maxLen) / 2
          · rw [if_pos hc]
            decide
          · rw [if_neg hc]
            decide
        have h3 : (if min (cleanStr text).data.length
              (f - (if maxLen = 0 then 240 else maxLen) / 2 + (if maxLen = 0 then 240 else maxLen)) <
              (cleanStr text).data.length
            then [' ', '…'] else ([] : List Char)).length ≤ 2 := by
          by_cases hc : min (cleanStr text).data.length
              (f - (if maxLen = 0 then 240 else maxLen) / 2 + (if maxLen = 0 then 240 else maxLen)) <
              (cleanStr text).data.length
          · rw [if_pos hc]
            decide
          · rw [if_neg hc]
            decide
        have h2 := jsTrim_length_le
          (((cleanStr text).data.drop (f - (if maxLen = 0 then 240 else maxLen) / 2)).take
            (min (cleanStr text).data.length
              (f - (if maxLen = 0 then 240 else maxLen) / 2 + (if maxLen = 0 then 240 else maxLen)) -
             (f - (if maxLen = 0 then 240 else maxLen) / 2)))
        have h2b := List.length_take_le
          (min (cleanStr text).data.length
            (f - (if maxLen = 0 then 240 else maxLen) / 2 + (if maxLen = 0 then 240 else maxLen)) -
           (f - (if maxLen = 0 then 240 else maxLen) / 2))
          ((cleanStr text).data.drop (f - (if maxLen = 0 then 240 else maxLen) / 2))
        have hmin : min (cleanStr text).data.length
            (f - (if maxLen = 0 then 240 else maxLen) / 2 + (if maxLen = 0 then 240 else maxLen)) ≤
            f - (if maxLen = 0 then 240 else maxLen) / 2 + (if maxLen = 0 then 240 else maxLen) :=
          Nat.min_le_right _ _
        simp only [String.length, List.length_append]
        omega
  · intro foundAt hE ht
    have hE' := hE
    unfold earliestIdx at hE'
    have hbase : lcList (cleanStr text).data ≠ [] :=
      lcList_ne_nil _ (fun hh => ht ((data_eq_nil_iff _).mp hh))
    have hlt : foundAt < (cleanStr text).data.length := by
      have := earliestFold_pred (lcList (cleanStr text).data)
        (fun i => i < (lcList (cleanStr text).data).length) queries none (by simp)
        (fun q _ i hi => idxOf?_lt _ _ i hbase hi) foundAt hE'
      simpa [lcList_length] using this
    refine ⟨?_, ?_, ?_, ?_⟩
    · exact earliestFold_pred (lcList (cleanStr text).data)
        (fun i => ∃ q ∈ queries, idxOf? (lcList (cleanStr text).data) (lcList q.data) = some i)
        queries none (by simp) (fun q hq i hi => ⟨q, hq, hi⟩) foundAt hE'
    · intro q hq j hpre
      cases hio : idxOf? (lcList (cleanStr text).data) (lcList q.data) with
      | none =>
        have := idxOf?_none_no_occ _ _ hio j
        rw [hpre] at this
        cases this
      | some i0 =>
        exact le_trans ((earliestFold_le _ queries none foundAt hE').2 q hq i0 hio)
          (idxOf?_first _ _ i0 hio j hpre)
    · have hhalf : (if maxLen = 0 then 240 else maxLen) / 2 < (if maxLen = 0 then 240 else maxLen) :=
        Nat.div_lt_self (by omega) (by omega)
      omega
    · simp only [makeExcerpt, if_neg ht, excerptCore, hE]
  · intro hE ht
    simp only [makeExcerpt, if_neg ht, excerptCore, hE]
    by_cases hlen : (cleanStr text).data.length ≤ (if maxLen = 0 then 240 else maxLen)
    · rw [if_pos hlen]
      exact Or.inl ⟨hlen, rfl⟩
    · rw [if_neg hlen]
      refine Or.inr ⟨jsTrimEnd ((cleanStr text).data.take ((if maxLen = 0 then 240 else maxLen) - 1)),
        (jsTrimEnd_prefixOf _).trans (List.take_prefix _ _), ?_, rfl⟩
      exact le_trans (jsTrimEnd_length_le _) (List.length_take_le _ _)

theorem makeExcerpt_window_witness :
    (makeExcerpt "The quick brown fox jumps over the lazy dog" ["fox"] 10).length ≤
        (if (10 : Nat) = 0 then 240 else 10) + 4 ∧
      (∃ q ∈ ["fox"],
        idxOf? (lcList (cleanStr "The quick brown fox jumps over the lazy dog").data)
          (lcList q.data) = some 16) :=
  ⟨(makeExcerpt_window "The quick brown fox jumps over the lazy dog" ["fox"] 10
      (if (10 : Nat) = 0 then 240 else 10) rfl).1,
   ((makeExcerpt_window "The quick brown fox jumps over the lazy dog" ["fox"] 10
      (if (10 : Nat) = 0 then 240 else 10) rfl).2.1 16 (by decide) (by decide)).1⟩

/-! ### Claim C5: highlighting -/

/-- C5 counterexample: the two overlapping case-insensitive occurrences of
"aa" in "aaa" are not both wrapped — the replace scans left to right over
non-overlapping matches, so only one `«` appears in the output. -/
theorem highlight_cex :
    highlight "aaa" ["aa"] = "«aa»a" ∧ countCiOcc "aaa".data "aa".data = 2 ∧
      ((highlight "aaa" ["aa"]).data.count '«') = 1 := by decide

theorem filter_ciReplaceF : ∀ (fuel : Nat) (term text : List Char),
    (ciReplaceF term fuel text).filter (fun c => c != '«' && c != '»') =
      text.filter (fun c => c != '«' && c != '»') := by
  intro fuel
  induction fuel with
  | zero =>
    intro term text
    cases text with
    | nil => rfl
    | cons c rest => rfl
  | succ n ih =>
    intro term text
    cases text with
    | nil => rfl
    | cons c rest =>
      simp only [ciReplaceF]
      by_cases hc : 0 < term.length ∧ (lcList term).isPrefixOf (lcList (c :: rest))
      · rw [if_pos hc]
        have h1 : ((('«' : Char) != '«') && (('«' : Char) != '»')) = false := rfl
        have h2 : ((('»' : Char) != '«') && (('»' : Char) != '»')) = false := rfl
        conv_rhs => rw [← List.take_append_drop term.length (c :: rest)]
        rw [List.filter_cons, List.filter_append, List.filter_cons, List.filter_append]
        rw [h1, h2]
        simp only [Bool.false_eq_true, if_false]
        rw [ih]
      · rw [if_neg hc]
        rw [List.filter_cons, List.filter_cons, ih]

theorem filter_highlightFold (compileOk : String → Bool) :
    ∀ (qs : List String) (st : List Char × List String),
      ((qs.foldl (fun (acc : List Char × List String) (qi : String) =>
          let term := jsTrimS qi
          if term = "" || acc.2.contains term then acc
          else if compileOk term then (ciReplace term.data acc.1, term :: acc.2)
          else (acc.1, term :: acc.2)) st).1).filter (fun c => c != '«' && c != '»') =
        st.1.filter (fun c => c != '«' && c != '»') := by
  intro qs
  induction qs with
  | nil => intro st; rfl
  | cons q rest ih =>
    intro st
    rw [List.foldl_cons]
    rw [ih]
    dsimp only
    split
    · rfl
    · split
      · exact filter_ciReplaceF _ _ _
      · rfl

theorem strip_highlightWith (compileOk : String → Bool) (text : String)
    (queries : List String) :
    stripMarkers (highlightWith compileOk text queries) = stripMarkers text := by
  unfold highlightWith
  by_cases htext : text = ""
  · rw [if_pos htext, htext]
  · rw [if_neg htext]
    unfold stripMarkers
    congr 1
    exact filter_highlightFold compileOk queries (text.data, [])

theorem ciReplaceF_wraps : ∀ (fuel : Nat) (term text : List Char),
    text.length ≤ fuel → term ≠ [] →
    (∃ i, (lcList term).isPrefixOf ((lcList text).drop i) = true) →
    ∃ s, lcList s = lcList term ∧ ('«' :: (s ++ ['»'])) <:+: ciReplaceF term fuel text := by
  intro fuel
  induction fuel with
  | zero =>
    intro term text hlen hterm hocc
    exfalso
    obtain ⟨i, hi⟩ := hocc
    cases text with
    | nil =>
      rw [show lcList [] = [] from rfl, List.drop_nil] at hi
      have := List.prefix_nil.mp (List.isPrefixOf_iff_prefix.mp hi)
      exact hterm (by simpa [lcList] using this)
    | cons c rest => simp at hlen
  | succ n ih =>
    intro term text hlen hterm hocc
    cases text with
    | nil =>
      exfalso
      obtain ⟨i, hi⟩ := hocc
      rw [show lcList [] = [] from rfl, List.drop_nil] at hi
      have := List.prefix_nil.mp (List.isPrefixOf_iff_prefix.mp hi)
      exact hterm (by simpa [lcList] using this)
    | cons c rest =>
      simp only [ciReplaceF]
      by_cases hc : 0 < term.length ∧ (lcList term).isPrefixOf (lcList (c :: rest))
      · rw [if_pos hc]
        refine ⟨(c :: rest).take term.length, ?_, ?_⟩
        · have hp := List.isPrefixOf_iff_prefix.mp hc.2
          have heq := List.prefix_iff_eq_take.mp hp
          have hlen2 : (lcList term).length = term.length := lcList_length term
          rw [show lcList ((c :: rest).take term.length) =
            ((lcList (c :: rest)).take term.length) from by
              simp [lcList, List.map_take]]
          rw [← hlen2]
          exact heq.symm
        · refine List.IsPrefix.isInfix ⟨ciReplaceF term n ((c :: rest).drop term.length), ?_⟩
          simp
      · rw [if_neg hc]
        obtain ⟨i, hoccI⟩ := hocc
        have h0 : 0 < term.length := by
          cases term with
          | nil => exact absurd rfl hterm
          | cons x xs => simp
        cases i with
        | zero =>
          exact absurd ⟨h0, by simpa using hoccI⟩ hc
        | succ i' =>
          have hocc' : ∃ j, (lcList term).isPrefixOf ((lcList rest).drop j) = true := by
            refine ⟨i', ?_⟩
            have : lcList (c :: rest) = Char.toLower c :: lcList rest := rfl
            rw [this] at hoccI
            simpa using hoccI
          have hlen' : rest.length ≤ n := by
            simp at hlen
            omega
          obtain ⟨s, hs1, hs2⟩ := ih term rest hlen' hterm hocc'
          exact ⟨s, hs1, List.infix_cons hs2⟩

theorem highlight_wraps (text t : String) (ht : jsTrimS t ≠ "")
    (hocc : ∃ i, (lcList (jsTrimS t).data).isPrefixOf ((lcList text.data).drop i) = true) :
    ∃ s, lcList s = lcList (jsTrimS t).data ∧
      ('«' :: (s ++ ['»'])) <:+: (highlight text [t]).data := by
  have htd : (jsTrimS t).data ≠ [] := fun hh => ht ((data_eq_nil_iff _).mp hh)
  have htext : text ≠ "" := by
    intro hh
    subst hh
    obtain ⟨i, hi⟩ := hocc
    rw [show lcList ("" : String).data = [] from rfl, List.drop_nil] at hi
    have := List.prefix_nil.mp (List.isPrefixOf_iff_prefix.mp hi)
    exact htd (by simpa [lcList] using this)
  unfold highlight highlightWith
  rw [if_neg htext]
  rw [List.foldl_cons, List.foldl_nil]
  simp [ht]
  show ∃ s, lcList s = lcList (jsTrimS t).data ∧
    ('«' :: (s ++ ['»'])) <:+: ciReplaceF (jsTrimS t).data text.data.length text.data
  exact ciReplaceF_wraps text.data.length (jsTrimS t).data text.data (le_refl _) htd hocc

theorem highlightWith_skip (compileOk : String → Bool) (text t : String)
    (h : compileOk (jsTrimS t) = false) : highlightWith compileOk text [t] = text := by
  unfold highlightWith
  by_cases htext : text = ""
  · rw [if_pos htext, htext]
  · rw [if_neg htext]
    rw [List.foldl_cons, List.foldl_nil]
    by_cases ht : jsTrimS t = ""
    · simp [ht]
    · simp [ht, h]

theorem searchRules_plain_excerpt (syn : List (String × List String)) (rules : List Rule)
    (opts : SearchOpts) (hfl : opts.doHighlight = false) :
    ∀ hit ∈ (searchRules syn rules opts).results, ∃ r ∈ rules,
      hit.excerpt = makeExcerpt (clean r.content)
        (expandQueryWithSynonyms syn (clean opts.q)) 240 := by
  intro hit hm
  by_cases hq : clean opts.q = ""
  · simp [searchRules, hq] at hm
  · rw [searchRules_eq syn rules opts hq] at hm
    rcases List.mem_map.mp hm with ⟨item, hitem, rfl⟩
    have hmem : item ∈ searchCandidates rules (expandQueryWithSynonyms syn (clean opts.q)) :=
      (sortByScore_perm _).mem_iff.mp ((slice_sublist _ _ _).mem hitem)
    unfold searchCandidates at hmem
    rcases List.mem_filterMap.mp hmem with ⟨r, hr, hf⟩
    by_cases hs : 0 < scoreRule r (expandQueryWithSynonyms syn (clean opts.q))
    · simp only [hs, if_pos] at hf
      refine ⟨r, hr, ?_⟩
      rw [← Option.some.inj hf]
      simp [formatHit, hfl]
    · simp [hs] at hf

/-- C5 (amended): with the highlight flag set, the terms are processed in
order and each pass wraps the leftmost non-overlapping case-insensitive
occurrences of the distinct non-empty trimmed term in the current text —
in particular a term that occurs in the excerpt has a wrapped match in the
output, and stripping all `«`/`»` markers always recovers the excerpt —
but occurrences that overlap an earlier match (or an earlier term's
insertion) are not wrapped; with the flag omitted or false every result's
excerpt is the plain `makeExcerpt` output, byte for byte; a term whose
pattern fails to compile is skipped silently. -/
theorem highlight_flag_spec :
    (∀ text t, jsTrimS t ≠ "" →
      (∃ i, (lcList (jsTrimS t).data).isPrefixOf ((lcList text.data).drop i) = true) →
      ∃ s, lcList s = lcList (jsTrimS t).data ∧
        ('«' :: (s ++ ['»'])) <:+: (highlight text [t]).data) ∧
    (∀ compileOk text queries,
      stripMarkers (highlightWith compileOk text queries) = stripMarkers text) ∧
    (∀ syn rules opts, opts.doHighlight = false →
      ∀ hit ∈ (searchRules syn rules opts).results, ∃ r ∈ rules,
        hit.excerpt = makeExcerpt (clean r.content)
          (expandQueryWithSynonyms syn (clean opts.q)) 240) ∧
    (∀ compileOk text t, compileOk (jsTrimS t) = false →
      highlightWith compileOk text [t] = text) :=
  ⟨highlight_wraps, strip_highlightWith,
   fun syn rules opts hfl => searchRules_plain_excerpt syn rules opts hfl,
   highlightWith_skip⟩

theorem highlight_flag_spec_witness :
    (∃ s, lcList s = lcList (jsTrimS "balk").data ∧
      ('«' :: (s ++ ['»'])) <:+: (highlight "No balk here" ["balk"]).data) ∧
    stripMarkers (highlightWith (fun _ => true) "No balk here" ["balk"]) =
      stripMarkers "No balk here" :=
  ⟨highlight_flag_spec.1 "No balk here" "balk" (by decide) ⟨3, by decide⟩,
   highlight_flag_spec.2.1 (fun _ => true) "No balk here" ["balk"]⟩
